import Mathlib

/-!
Verification development for the mini-lsm storage engine core.

The Rust sources embedded here (shallowly) are:
  src/mini-lsm/src/block.rs            (Block, encode, decode)
  src/mini-lsm/src/block/builder.rs    (BlockBuilder)
  src/mini-lsm/src/table.rs            (BlockMeta, SsTable, open, read_block, find_block_idx)
  src/mini-lsm/src/table/builder.rs    (SsTableBuilder)
  src/mini-lsm/src/lsm_storage.rs      (LsmStorageInner, get, put, delete, sync)

Byte strings are modelled as `List Nat` (each element a byte value).
Machine integers are Nat with explicit `% 2 ^ w` at the points where the
source casts (`as u16`, `as u32`) or where the wire format stores a
fixed-width field.
-/

namespace MiniLsm

/-- Big-endian encoding of a value stored as u16 (the source writes
`put_u16(v)`, where v was possibly produced by an `as u16` cast, hence
the explicit reduction modulo 2 ^ 16). -/
def u16be (v : Nat) : List Nat := [v % 65536 / 256, v % 256]

/-- Big-endian encoding of a value stored as u32 (`put_u32`), with the
explicit reduction modulo 2 ^ 32 of the `as u32` cast. -/
def u32be (v : Nat) : List Nat :=
  [v % 4294967296 / 16777216, v % 16777216 / 65536, v % 65536 / 256, v % 256]

/-- Read a big-endian u16 from the first two bytes (`get_u16`). The
source panics when fewer than two bytes remain; that malformed case is
modelled as returning 0. -/
def readU16 : List Nat → Nat
  | a :: b :: _ => a * 256 + b
  | _ => 0

/-- Read a big-endian u32 from the first four bytes (`get_u32`); the
malformed short case is modelled as returning 0 (the source panics). -/
def readU32 : List Nat → Nat
  | a :: b :: c :: d :: _ => ((a * 256 + b) * 256 + c) * 256 + d
  | _ => 0

theorem readU16_u16be (v : Nat) (rest : List Nat) :
    readU16 (u16be v ++ rest) = v % 65536 := by
  simp only [u16be, List.cons_append, List.nil_append, readU16]
  omega

theorem readU32_u32be (v : Nat) (rest : List Nat) :
    readU32 (u32be v ++ rest) = v % 4294967296 := by
  simp only [u32be, List.cons_append, List.nil_append, readU32]
  omega

/-! ## Block and BlockBuilder (block.rs, block/builder.rs) -/

/-- Block: entry bytes plus the offset index (Rust struct `Block`,
`data: Vec<u8>`, `offsets: Vec<u16>`). -/
structure Block where
  data : List Nat
  offsets : List Nat
deriving DecidableEq, Repr

/-- BlockBuilder (block/builder.rs). -/
structure BlockBuilder where
  offsets : List Nat
  data : List Nat
  block_size : Nat
deriving DecidableEq, Repr

def BlockBuilder.new (size : Nat) : BlockBuilder := ⟨[], [], size⟩

/-- Size of a block except num_of_elements:
`offsets.len() * SIZEOF_U16 + data.len() + SIZEOF_U16`. -/
def BlockBuilder.estimated_size (b : BlockBuilder) : Nat :=
  b.offsets.length * 2 + b.data.length + 2

def BlockBuilder.is_empty (b : BlockBuilder) : Bool := b.offsets.isEmpty

/-- The bytes appended to `data` for one entry:
`key_len(u16) | key | value_len(u16) | value` (the source casts the
lengths with `as u16`, which `u16be` reduces modulo 2 ^ 16). -/
def entryBytes (key value : List Nat) : List Nat :=
  u16be key.length ++ key ++ u16be value.length ++ value

/-- BlockBuilder::add. Returns the acceptance flag together with the
updated builder. The pushed offset is `self.data.len() as u16`, hence
the explicit `% 65536`. The source also asserts that `key` is not
empty (a panic); theorems about `add` carry that as a hypothesis. -/
def BlockBuilder.add (b : BlockBuilder) (key value : List Nat) : Bool × BlockBuilder :=
  if b.estimated_size + key.length + value.length + 2 * 3 > b.block_size
      ∧ b.is_empty = false then
    (false, b)
  else
    (true, { b with
      offsets := b.offsets ++ [b.data.length % 65536],
      data := b.data ++ entryBytes key value })

/-- BlockBuilder::build. The source panics when the builder is empty;
the model is total and theorems that need it carry non-emptiness. -/
def BlockBuilder.build (b : BlockBuilder) : Block := ⟨b.data, b.offsets⟩

/-- The bytes the encode loop `for offset in offsets { put_u16 }`
appends. -/
def offsetsToBytes : List Nat → List Nat
  | [] => []
  | o :: rest => u16be o ++ offsetsToBytes rest

/-- Block::encode: data, then each offset as u16, then
`offsets.len() as u16`. -/
def Block.encode (b : Block) : List Nat :=
  b.data ++ offsetsToBytes b.offsets ++ u16be b.offsets.length

/-- The decode loop `chunks(SIZEOF_U16).map(get_u16)`. A trailing odd
byte would make `get_u16` panic in the source; that malformed case is
modelled as stopping. -/
def parseU16s : List Nat → List Nat
  | a :: b :: rest => (a * 256 + b) :: parseU16s rest
  | _ => []

/-- Block::decode: read the trailing u16 entry count n from the last
two bytes, compute `data_end = len - 2 - n * 2`, slice
`[data_end, len - 2)` as the offsets region and the prefix
`[0, data_end)` as the entry area. Written without local lets so the
source locals `entry_offsets_len` and `data_end` appear inline. -/
def Block.decode (d : List Nat) : Block :=
  ⟨d.take (d.length - 2 - readU16 (d.drop (d.length - 2)) * 2),
   parseU16s ((d.take (d.length - 2)).drop
      (d.length - 2 - readU16 (d.drop (d.length - 2)) * 2))⟩

theorem offsetsToBytes_length (os : List Nat) :
    (offsetsToBytes os).length = 2 * os.length := by
  induction os with
  | nil => rfl
  | cons o rest ih => simp [offsetsToBytes, u16be, ih]; omega

theorem parseU16s_offsetsToBytes (os : List Nat) (h : ∀ o ∈ os, o < 65536) :
    parseU16s (offsetsToBytes os) = os := by
  induction os with
  | nil => rfl
  | cons o rest ih =>
    have ho : o < 65536 := h o (List.mem_cons_self o rest)
    have ih' := ih (fun x hx => h x (List.mem_cons_of_mem o hx))
    show parseU16s ((o % 65536 / 256) :: (o % 256) :: offsetsToBytes rest) = o :: rest
    rw [parseU16s, ih']
    congr 1
    omega

/-- The block round-trip: decoding an encoded block reproduces it
byte-for-byte, provided every offset fits in u16 (true of
builder-produced blocks, whose offsets are pushed with an `as u16`
cast) and the entry count fits in u16. -/
theorem Block.decode_encode (b : Block)
    (hlen : b.offsets.length < 65536)
    (hoff : ∀ o ∈ b.offsets, o < 65536) :
    Block.decode (Block.encode b) = b := by
  have hA : (b.data ++ offsetsToBytes b.offsets).length
      = b.data.length + 2 * b.offsets.length := by
    simp [offsetsToBytes_length]
  have henc : Block.encode b
      = (b.data ++ offsetsToBytes b.offsets) ++ u16be b.offsets.length := by
    simp [Block.encode, List.append_assoc]
  have hL : (Block.encode b).length
      = b.data.length + 2 * b.offsets.length + 2 := by
    rw [henc, List.length_append, hA]
    simp only [u16be, List.length_cons, List.length_nil]
  have hdrop : (Block.encode b).drop ((Block.encode b).length - 2)
      = u16be b.offsets.length := by
    rw [hL, henc]
    rw [show b.data.length + 2 * b.offsets.length + 2 - 2
        = (b.data ++ offsetsToBytes b.offsets).length from by rw [hA]; omega]
    exact List.drop_left _ _
  have hn : readU16 ((Block.encode b).drop ((Block.encode b).length - 2))
      = b.offsets.length := by
    rw [hdrop]
    have := readU16_u16be b.offsets.length []
    simpa [Nat.mod_eq_of_lt hlen] using this
  have hdataEnd : (Block.encode b).length - 2 - b.offsets.length * 2
      = b.data.length := by omega
  have htake2 : (Block.encode b).take ((Block.encode b).length - 2)
      = b.data ++ offsetsToBytes b.offsets := by
    rw [hL, henc]
    rw [show b.data.length + 2 * b.offsets.length + 2 - 2
        = (b.data ++ offsetsToBytes b.offsets).length from by rw [hA]; omega]
    exact List.take_left _ _
  have htakeD : (Block.encode b).take b.data.length = b.data := by
    have henc2 : Block.encode b
        = b.data ++ (offsetsToBytes b.offsets ++ u16be b.offsets.length) := by
      simp [Block.encode]
    rw [henc2]
    exact List.take_left b.data _
  have hdropD : (b.data ++ offsetsToBytes b.offsets).drop b.data.length
      = offsetsToBytes b.offsets := List.drop_left b.data _
  unfold Block.decode
  rw [hn, hdataEnd, htake2, htakeD, hdropD, parseU16s_offsetsToBytes b.offsets hoff]

theorem entryBytes_length (k v : List Nat) :
    (entryBytes k v).length = 4 + k.length + v.length := by
  simp [entryBytes, u16be]
  omega

theorem add_of_empty (b : BlockBuilder) (k v : List Nat) (h : b.is_empty = true) :
    b.add k v = (true, { b with offsets := b.offsets ++ [b.data.length % 65536],
                                data := b.data ++ entryBytes k v }) := by
  unfold BlockBuilder.add
  rw [if_neg (by simp [h])]

theorem add_accepted_eq (b : BlockBuilder) (k v : List Nat)
    (h : (b.add k v).1 = true) :
    (b.add k v).2 = { b with offsets := b.offsets ++ [b.data.length % 65536],
                             data := b.data ++ entryBytes k v } := by
  unfold BlockBuilder.add at h ⊢
  split_ifs at h ⊢
  rfl

theorem add_rejected_eq (b : BlockBuilder) (k v : List Nat)
    (h : (b.add k v).1 = false) : (b.add k v).2 = b := by
  unfold BlockBuilder.add at h ⊢
  split_ifs at h ⊢
  rfl

theorem add_data_le (b : BlockBuilder) (k v : List Nat) :
    b.data.length ≤ (b.add k v).2.data.length := by
  unfold BlockBuilder.add
  split_ifs with hc
  · simp
  · simp

theorem add_offsets_cases (b : BlockBuilder) (k v : List Nat) :
    (b.add k v).2.offsets = b.offsets
    ∨ (b.add k v).2.offsets = b.offsets ++ [b.data.length % 65536] := by
  unfold BlockBuilder.add
  split_ifs with hc
  · exact Or.inl rfl
  · exact Or.inr rfl

/-- C3: BlockBuilder::add appends and returns true precisely when the
builder is empty or the estimated size plus the incoming entry
(4 + key_len + value_len plus one 2-byte offset slot) stays within
block_size; the first entry is always accepted; a rejected add leaves
the builder unchanged. -/
theorem blockBuilder_add_spec (b : BlockBuilder) (key value : List Nat)
    (hk : key ≠ []) (hv : value ≠ []) :
    ((b.add key value).1 = true ↔
      (b.is_empty = true ∨
        b.estimated_size + (4 + key.length + value.length) + 2 ≤ b.block_size))
    ∧ ((b.add key value).1 = true →
        (b.add key value).2 = { b with
          offsets := b.offsets ++ [b.data.length % 65536],
          data := b.data ++ entryBytes key value })
    ∧ ((b.add key value).1 = false → (b.add key value).2 = b)
    ∧ (b.is_empty = true → (b.add key value).1 = true) := by
  refine ⟨?_, add_accepted_eq b key value, add_rejected_eq b key value, ?_⟩
  · unfold BlockBuilder.add
    split_ifs with hc
    · obtain ⟨hgt, hne⟩ := hc
      simp only [false_iff]
      intro h
      rcases h with he | hle
      · rw [he] at hne
        cases hne
      · omega
    · simp only [true_iff]
      by_cases he : b.is_empty = true
      · exact Or.inl he
      · right
        have hne : b.is_empty = false := by
          cases hbe : b.is_empty
          · rfl
          · exact absurd hbe he
        by_contra hgt
        exact hc ⟨by omega, hne⟩
  · intro he
    rw [add_of_empty b key value he]

/-- Witness for C3 at a concrete builder and entry. -/
theorem blockBuilder_add_spec_witness :
    ((((BlockBuilder.new 16).add [1] [2]).1 = true ↔
      ((BlockBuilder.new 16).is_empty = true ∨
        (BlockBuilder.new 16).estimated_size + (4 + [1].length + [2].length) + 2
          ≤ (BlockBuilder.new 16).block_size))
    ∧ (((BlockBuilder.new 16).add [1] [2]).1 = true →
        ((BlockBuilder.new 16).add [1] [2]).2 = { BlockBuilder.new 16 with
          offsets := (BlockBuilder.new 16).offsets
            ++ [(BlockBuilder.new 16).data.length % 65536],
          data := (BlockBuilder.new 16).data ++ entryBytes [1] [2] })
    ∧ (((BlockBuilder.new 16).add [1] [2]).1 = false →
        ((BlockBuilder.new 16).add [1] [2]).2 = BlockBuilder.new 16)
    ∧ ((BlockBuilder.new 16).is_empty = true →
        ((BlockBuilder.new 16).add [1] [2]).1 = true)) :=
  blockBuilder_add_spec (BlockBuilder.new 16) [1] [2] (by decide) (by decide)

/-! ## Replaying sequences of adds (used by C2 and C10) -/

/-- Replay a sequence of add calls against a builder (the only mutating
operation the source exposes besides build). -/
def replayAdds (b : BlockBuilder) (es : List (List Nat × List Nat)) : BlockBuilder :=
  es.foldl (fun b e => (b.add e.1 e.2).2) b

/-- Every add in the sequence is accepted. -/
def allAccepted : BlockBuilder → List (List Nat × List Nat) → Bool
  | _, [] => true
  | b, e :: es => (b.add e.1 e.2).1 && allAccepted (b.add e.1 e.2).2 es

/-- The true byte offsets of consecutive entries in the entry area,
starting from a given accumulated length. -/
def trueOffsets (acc : Nat) : List (List Nat × List Nat) → List Nat
  | [] => []
  | e :: es => acc :: trueOffsets (acc + (4 + e.1.length + e.2.length)) es

theorem replayAdds_nil (b : BlockBuilder) : replayAdds b [] = b := rfl

theorem replayAdds_cons (b : BlockBuilder) (e : List Nat × List Nat)
    (es : List (List Nat × List Nat)) :
    replayAdds b (e :: es) = replayAdds (b.add e.1 e.2).2 es := rfl

theorem replayAdds_append (b : BlockBuilder) (l1 l2 : List (List Nat × List Nat)) :
    replayAdds b (l1 ++ l2) = replayAdds (replayAdds b l1) l2 := by
  simp [replayAdds, List.foldl_append]

theorem replay_data_mono (es : List (List Nat × List Nat)) :
    ∀ b : BlockBuilder, b.data.length ≤ (replayAdds b es).data.length := by
  induction es with
  | nil => intro b; simp [replayAdds_nil]
  | cons e es ih =>
    intro b
    rw [replayAdds_cons]
    exact le_trans (add_data_le b e.1 e.2) (ih _)

theorem replay_offsets_lt (es : List (List Nat × List Nat)) :
    ∀ b : BlockBuilder, (∀ o ∈ b.offsets, o < 65536) →
    ∀ o ∈ (replayAdds b es).offsets, o < 65536 := by
  induction es with
  | nil => intro b hb; simpa [replayAdds_nil] using hb
  | cons e es ih =>
    intro b hb
    rw [replayAdds_cons]
    refine ih _ ?_
    rcases add_offsets_cases b e.1 e.2 with h | h
    · rw [h]; exact hb
    · rw [h]
      intro o ho
      rcases List.mem_append.mp ho with h1 | h2
      · exact hb o h1
      · rcases List.mem_singleton.mp h2 with rfl
        exact Nat.mod_lt _ (by omega)

/-- When every add is accepted and the accumulated entry bytes stay
below 2 ^ 16, the recorded offsets are the true byte offsets. -/
theorem replay_offsets_exact (es : List (List Nat × List Nat)) :
    ∀ b : BlockBuilder,
    allAccepted b es = true →
    (replayAdds b es).data.length < 65536 →
    (replayAdds b es).offsets = b.offsets ++ trueOffsets b.data.length es := by
  induction es with
  | nil => intro b _ _; simp [replayAdds_nil, trueOffsets]
  | cons e es ih =>
    intro b hacc hlt
    rw [replayAdds_cons] at hlt ⊢
    rw [allAccepted] at hacc
    rw [Bool.and_eq_true] at hacc
    obtain ⟨h1, h2⟩ := hacc
    have hb' := add_accepted_eq b e.1 e.2 h1
    have hlen : b.data.length < 65536 := by
      have hm := replay_data_mono es ((b.add e.1 e.2).2)
      have hd := add_data_le b e.1 e.2
      omega
    rw [ih _ h2 hlt, hb']
    simp only [List.length_append, entryBytes_length]
    rw [Nat.mod_eq_of_lt hlen]
    rw [trueOffsets]
    simp [List.append_assoc]

/-- The builder state holding one oversized entry of 65532 key bytes
(entry size 4 + 65532 = 65536), used to exhibit offset truncation. -/
def bigBuilder : BlockBuilder :=
  ⟨[0], entryBytes (List.replicate 65532 7) [], 200000⟩

/-- C10: the builder records each entry offset as the data length cast
to u16. First conjunct: an accepted add pushes exactly
`data.len() % 2 ^ 16`. Second conjunct: while the accumulated entry
bytes stay below 2 ^ 16, every recorded offset is the true byte offset
of its entry. Third conjunct (concrete): a first oversized entry is
accepted by the empty builder, after which the next accepted add
silently stores a truncated offset (0 instead of 65536). -/
theorem blockBuilder_offset_truncation :
    (∀ (b : BlockBuilder) (k v : List Nat), (b.add k v).1 = true →
       (b.add k v).2.offsets = b.offsets ++ [b.data.length % 65536])
    ∧ (∀ (size : Nat) (es : List (List Nat × List Nat)),
       allAccepted (BlockBuilder.new size) es = true →
       (replayAdds (BlockBuilder.new size) es).data.length < 65536 →
       (replayAdds (BlockBuilder.new size) es).offsets = trueOffsets 0 es)
    ∧ ((((BlockBuilder.new 200000).add (List.replicate 65532 7) []).2.add [5] []).1 = true
        ∧ (((BlockBuilder.new 200000).add (List.replicate 65532 7) []).2).data.length = 65536
        ∧ (((BlockBuilder.new 200000).add (List.replicate 65532 7) []).2.add [5] []).2.offsets
            = [0, 0]) := by
  refine ⟨?_, ?_, ?_⟩
  · intro b k v h
    rw [add_accepted_eq b k v h]
  · intro size es hacc hlt
    have := replay_offsets_exact es (BlockBuilder.new size) hacc hlt
    simpa [BlockBuilder.new] using this
  · have h0 : (BlockBuilder.new 200000).is_empty = true := rfl
    have hadd1 := add_of_empty (BlockBuilder.new 200000) (List.replicate 65532 7) [] h0
    have hb1 : ((BlockBuilder.new 200000).add (List.replicate 65532 7) []).2
        = bigBuilder := by
      rw [hadd1]
      rfl
    have hdlen : bigBuilder.data.length = 65536 := by
      show (entryBytes (List.replicate 65532 7) []).length = 65536
      rw [entryBytes_length, List.length_replicate, List.length_nil]
    have hacc2 : (bigBuilder.add [5] []).1 = true := by
      unfold BlockBuilder.add
      rw [if_neg]
      intro hcon
      obtain ⟨hgt, _⟩ := hcon
      rw [BlockBuilder.estimated_size] at hgt
      rw [show bigBuilder.offsets.length = 1 from rfl, hdlen,
        show ([5] : List Nat).length = 1 from rfl,
        show ([] : List Nat).length = 0 from rfl,
        show bigBuilder.block_size = 200000 from rfl] at hgt
      omega
    refine ⟨?_, ?_, ?_⟩
    · rw [hb1]
      exact hacc2
    · rw [hb1]
      exact hdlen
    · rw [hb1]
      rw [add_accepted_eq _ [5] [] hacc2]
      show bigBuilder.offsets ++ [bigBuilder.data.length % 65536] = [0, 0]
      rw [hdlen]
      rfl

/-- Witness for C10 at a concrete accepted sequence. -/
theorem blockBuilder_offset_truncation_witness :
    (replayAdds (BlockBuilder.new 100) [([1], [2]), ([3], [4])]).offsets
      = trueOffsets 0 [([1], [2]), ([3], [4])] :=
  blockBuilder_offset_truncation.2.1 100 [([1], [2]), ([3], [4])]
    (by decide) (by decide)

/-! ## C2: the encode/decode round-trip law for builder-produced blocks -/

/-- A block is builder-produced when some sequence of add calls with
non-empty keys, starting from a fresh builder of some target size,
leaves a non-empty builder (build panics on an empty one) whose build
returns the block. -/
def ProducedBlock (blk : Block) : Prop :=
  ∃ (size : Nat) (es : List (List Nat × List Nat)),
    (∀ e ∈ es, e.1 ≠ []) ∧
    (replayAdds (BlockBuilder.new size) es).is_empty = false ∧
    (replayAdds (BlockBuilder.new size) es).build = blk

/-- Entry bytes of the minimal repeated entry: key [107], empty value. -/
def e5 : List Nat := [0, 1, 107, 0, 0]

/-- Entry area after n minimal adds. -/
def dataN : Nat → List Nat
  | 0 => []
  | n + 1 => dataN n ++ e5

/-- Offset index after n minimal adds. -/
def offsN : Nat → List Nat
  | 0 => []
  | n + 1 => offsN n ++ [5 * n % 65536]

theorem dataN_length (n : Nat) : (dataN n).length = 5 * n := by
  induction n with
  | zero => rfl
  | succ m ih => simp [dataN, e5, ih]; omega

theorem offsN_length (n : Nat) : (offsN n).length = n := by
  induction n with
  | zero => rfl
  | succ m ih => simp [offsN, ih]

/-- The minimal repeated entry fed to the builder. -/
def repEntry : List Nat × List Nat := ([107], [])

theorem entryBytes_repEntry : entryBytes repEntry.1 repEntry.2 = e5 := by decide

/-- Closed form of the builder state after n minimal adds against a
target block size of 600000: all adds are accepted while the estimate
stays within bounds. -/
theorem replay_repeat (n : Nat) (h : 7 * n + 9 ≤ 600000) :
    replayAdds (BlockBuilder.new 600000) (List.replicate n repEntry)
      = ⟨offsN n, dataN n, 600000⟩ := by
  induction n with
  | zero => rfl
  | succ m ih =>
    have hm : 7 * m + 9 ≤ 600000 := by omega
    rw [List.replicate_succ', replayAdds_append, ih hm]
    show ((⟨offsN m, dataN m, 600000⟩ : BlockBuilder).add repEntry.1 repEntry.2).2
        = ⟨offsN (m + 1), dataN (m + 1), 600000⟩
    have hacc : ((⟨offsN m, dataN m, 600000⟩ : BlockBuilder).add
        repEntry.1 repEntry.2).1 = true := by
      unfold BlockBuilder.add
      rw [if_neg]
      intro hcon
      obtain ⟨hgt, _⟩ := hcon
      rw [BlockBuilder.estimated_size] at hgt
      simp only [offsN_length, dataN_length] at hgt
      rw [show repEntry.1.length = 1 from rfl,
        show repEntry.2.length = 0 from rfl] at hgt
      omega
    rw [add_accepted_eq _ _ _ hacc]
    show (⟨offsN m ++ [(dataN m).length % 65536],
        dataN m ++ entryBytes repEntry.1 repEntry.2, 600000⟩ : BlockBuilder) = _
    rw [dataN_length, entryBytes_repEntry]
    rfl

/-- The block the builder produces from 65536 minimal adds. -/
def bigBlock : Block := ⟨dataN 65536, offsN 65536⟩

theorem bigBlock_produced : ProducedBlock bigBlock := by
  refine ⟨600000, List.replicate 65536 repEntry, ?_, ?_, ?_⟩
  · intro e he
    rw [List.eq_of_mem_replicate he]
    intro hfalse
    cases hfalse
  · rw [replay_repeat 65536 (by omega)]
    show (offsN 65536).isEmpty = false
    have hne : offsN 65536 ≠ [] := by
      intro hnil
      have hl := offsN_length 65536
      rw [hnil] at hl
      cases hl
    exact List.isEmpty_eq_false.mpr hne
  · rw [replay_repeat 65536 (by omega)]
    rfl

theorem decode_offsets_eq (d : List Nat) :
    (Block.decode d).offsets
    = parseU16s ((d.take (d.length - 2)).drop
        (d.length - 2 - readU16 (d.drop (d.length - 2)) * 2)) := rfl

theorem bigBlock_decode_offsets :
    (Block.decode (Block.encode bigBlock)).offsets = [] := by
  have hA : (dataN 65536 ++ offsetsToBytes (offsN 65536)).length
      = 5 * 65536 + 2 * 65536 := by
    rw [List.length_append, dataN_length, offsetsToBytes_length, offsN_length]
  have htrail : u16be (bigBlock.offsets.length) = [0, 0] := by
    show u16be ((offsN 65536).length) = [0, 0]
    rw [offsN_length]
    rfl
  have henc : Block.encode bigBlock
      = (dataN 65536 ++ offsetsToBytes (offsN 65536)) ++ [0, 0] := by
    show dataN 65536 ++ offsetsToBytes (offsN 65536) ++ u16be ((offsN 65536).length)
        = (dataN 65536 ++ offsetsToBytes (offsN 65536)) ++ [0, 0]
    rw [show u16be ((offsN 65536).length) = [0, 0] from htrail, List.append_assoc]
  have hL : (Block.encode bigBlock).length = 5 * 65536 + 2 * 65536 + 2 := by
    rw [henc, List.length_append, hA]
    rfl
  have hdrop : (Block.encode bigBlock).drop ((Block.encode bigBlock).length - 2)
      = [0, 0] := by
    rw [hL, henc]
    rw [show 5 * 65536 + 2 * 65536 + 2 - 2
        = (dataN 65536 ++ offsetsToBytes (offsN 65536)).length from by rw [hA]]
    exact List.drop_left _ _
  have hn : readU16 ((Block.encode bigBlock).drop ((Block.encode bigBlock).length - 2))
      = 0 := by
    rw [hdrop]
    rfl
  rw [decode_offsets_eq, hn]
  have hlen2 : ((Block.encode bigBlock).take ((Block.encode bigBlock).length - 2)).length
      = (Block.encode bigBlock).length - 2 := by
    rw [List.length_take]
    omega
  rw [show (Block.encode bigBlock).length - 2 - 0 * 2
      = ((Block.encode bigBlock).take ((Block.encode bigBlock).length - 2)).length from by
        rw [hlen2]; omega]
  rw [List.drop_length]
  rfl

/-- C2 counterexample: the claim fails as stated. The builder accepts
65536 minimal entries when block_size is 600000; encoding stores the
entry count as u16, so 65536 wraps to 0 and decode reads back an empty
offsets vector. -/
theorem block_roundtrip_counterexample :
    ProducedBlock bigBlock
    ∧ Block.decode (Block.encode bigBlock) ≠ bigBlock := by
  refine ⟨bigBlock_produced, ?_⟩
  intro heq
  have hoffs := congrArg Block.offsets heq
  rw [bigBlock_decode_offsets] at hoffs
  have := offsN_length 65536
  rw [show bigBlock.offsets = offsN 65536 from rfl] at hoffs
  rw [← hoffs] at this
  cases this

/-- C2 amended: for every builder-produced block with fewer than 65536
entries, decode of encode reproduces the block byte-for-byte in both
data and offsets. -/
theorem block_roundtrip_produced (b : Block) (hp : ProducedBlock b)
    (hcount : b.offsets.length < 65536) :
    Block.decode (Block.encode b) = b := by
  obtain ⟨size, es, _, _, hbuild⟩ := hp
  have hoff : ∀ o ∈ b.offsets, o < 65536 := by
    have hb : b.offsets = (replayAdds (BlockBuilder.new size) es).offsets := by
      rw [← hbuild]
      rfl
    rw [hb]
    exact replay_offsets_lt es (BlockBuilder.new size) (by intro o ho; cases ho)
  exact Block.decode_encode b hcount hoff

/-- A small builder-produced block used as the round-trip witness. -/
def smallBlock : Block := (replayAdds (BlockBuilder.new 32) [([1], [2])]).build

/-- Witness for the amended C2 at a concrete produced block. -/
theorem block_roundtrip_produced_witness :
    Block.decode (Block.encode smallBlock) = smallBlock :=
  block_roundtrip_produced smallBlock
    ⟨32, [([1], [2])], by decide, by decide, rfl⟩ (by decide)

/-! ## BlockMeta and SsTable (table.rs) -/

/-- BlockMeta: offset of the data block in the file plus its first
key. -/
structure BlockMeta where
  offset : Nat
  first_key : List Nat
deriving DecidableEq, Repr

/-- Default meta used with getD where the source indexes the vector
directly (panicking out of bounds); theorems carry bounds. -/
def dfltMeta : BlockMeta := ⟨0, []⟩

/-- Strict lexicographic comparison of byte strings, as the Rust Ord
instance for byte slices compares them (shorter strict prefix is
smaller). -/
def bytesLt : List Nat → List Nat → Bool
  | [], [] => false
  | [], _ :: _ => true
  | _ :: _, [] => false
  | x :: xs, y :: ys => if x < y then true else if y < x then false else bytesLt xs ys

/-- Non-strict lexicographic comparison of byte strings. -/
def bytesLe : List Nat → List Nat → Bool
  | [], _ => true
  | _ :: _, [] => false
  | x :: xs, y :: ys => if x < y then true else if y < x then false else bytesLe xs ys

theorem bytesLt_cons_iff (x y : Nat) (xs ys : List Nat) :
    bytesLt (x :: xs) (y :: ys) = true
      ↔ (x < y ∨ (x = y ∧ bytesLt xs ys = true)) := by
  rw [bytesLt]
  split_ifs with h1 h2
  · simpa using Or.inl h1
  · simp only [false_iff]
    rintro (h | ⟨rfl, _⟩) <;> omega
  · have hxy : x = y := by omega
    subst hxy
    simp

theorem bytesLe_cons_iff (x y : Nat) (xs ys : List Nat) :
    bytesLe (x :: xs) (y :: ys) = true
      ↔ (x < y ∨ (x = y ∧ bytesLe xs ys = true)) := by
  rw [bytesLe]
  split_ifs with h1 h2
  · simpa using Or.inl h1
  · simp only [false_iff]
    rintro (h | ⟨rfl, _⟩) <;> omega
  · have hxy : x = y := by omega
    subst hxy
    simp

theorem bytesLt_of_not_bytesLe (a b : List Nat) (h : bytesLe a b = false) :
    bytesLt b a = true := by
  induction a generalizing b with
  | nil => simp [bytesLe] at h
  | cons x xs ih =>
    cases b with
    | nil => rfl
    | cons y ys =>
      have hne : ¬ (x < y ∨ (x = y ∧ bytesLe xs ys = true)) := by
        intro hcon
        rw [← bytesLe_cons_iff] at hcon
        rw [hcon] at h
        cases h
      push_neg at hne
      obtain ⟨hxy, heq⟩ := hne
      rw [bytesLt_cons_iff]
      by_cases hyx : y < x
      · exact Or.inl hyx
      · have hx : x = y := by omega
        right
        refine ⟨hx.symm, ?_⟩
        refine ih ys ?_
        have := heq hx
        cases hle : bytesLe xs ys
        · rfl
        · exact absurd hle this

theorem bytesLt_trans (a : List Nat) : ∀ b c : List Nat,
    bytesLt a b = true → bytesLt b c = true → bytesLt a c = true := by
  induction a with
  | nil =>
    intro b c h1 h2
    cases b with
    | nil => cases h1
    | cons y ys =>
      cases c with
      | nil => cases h2
      | cons z zs => rfl
  | cons x xs ih =>
    intro b c h1 h2
    cases b with
    | nil => cases h1
    | cons y ys =>
      cases c with
      | nil => cases h2
      | cons z zs =>
        rw [bytesLt_cons_iff] at h1 h2 ⊢
        rcases h1 with hxy | ⟨hxy, hxs⟩
        · rcases h2 with hyz | ⟨hyz, hys⟩
          · exact Or.inl (by omega)
          · exact Or.inl (by omega)
        · rcases h2 with hyz | ⟨hyz, hys⟩
          · exact Or.inl (by omega)
          · exact Or.inr ⟨by omega, ih ys zs hxs hys⟩

/-- Rust slice partition_point: on a slice where the predicate holds on
a prefix and fails from some index on (ensured here by the ascending
hypotheses of the theorems that use it), the binary search returns the
first index where the predicate fails, i.e. the length of the
satisfying prefix; modelled as that prefix length. -/
def partitionPoint {α : Type} (p : α → Bool) : List α → Nat
  | [] => 0
  | x :: xs => if p x then partitionPoint p xs + 1 else 0

theorem partitionPoint_le_length {α : Type} (p : α → Bool) (l : List α) :
    partitionPoint p l ≤ l.length := by
  induction l with
  | nil => exact Nat.le_refl 0
  | cons x xs ih =>
    rw [partitionPoint]
    split_ifs
    · simpa [List.length_cons] using Nat.succ_le_succ ih
    · exact Nat.zero_le _

theorem partitionPoint_pre {α : Type} (p : α → Bool) (l : List α) (d : α) :
    ∀ i, i < partitionPoint p l → p (l.getD i d) = true := by
  induction l with
  | nil => intro i hi; cases hi
  | cons x xs ih =>
    intro i hi
    rw [partitionPoint] at hi
    by_cases hx : p x = true
    · rw [if_pos hx] at hi
      cases i with
      | zero => simpa using hx
      | succ m =>
        rw [List.getD_cons_succ]
        exact ih m (by omega)
    · rw [if_neg hx] at hi
      cases hi

theorem partitionPoint_at {α : Type} (p : α → Bool) (l : List α) (d : α)
    (h : partitionPoint p l < l.length) :
    p (l.getD (partitionPoint p l) d) = false := by
  induction l with
  | nil => cases h
  | cons x xs ih =>
    by_cases hx : p x = true
    · rw [partitionPoint, if_pos hx] at h ⊢
      rw [List.getD_cons_succ]
      exact ih (by simpa [List.length_cons] using h)
    · rw [partitionPoint, if_neg hx] at h ⊢
      rw [List.getD_cons_zero]
      exact Bool.eq_false_iff.mpr hx

/-- SsTable (table.rs). The source struct holds a FileObject, the
decoded metas, the meta offset, the id and an optional block cache;
the file is modelled by its bytes and the cache is omitted (it only
memoizes read_block). The entries field is a ghost field recording the
logical entries the builder streamed in, used only to state theorems;
it mirrors no source field and does not influence the modelled code
paths. -/
structure SsTable where
  file : List Nat
  block_metas : List BlockMeta
  block_meta_offset : Nat
  id : Nat
  entries : List (List Nat × List Nat)
deriving DecidableEq, Repr

/-- SsTable::find_block_idx:
`partition_point(|meta| meta.first_key <= key).saturating_sub(1)`. -/
def SsTable.find_block_idx (t : SsTable) (key : List Nat) : Nat :=
  partitionPoint (fun meta => bytesLe meta.first_key key) t.block_metas - 1

/-- Adjacent strict ascent of the metas first keys, as a decidable
scan. -/
def ascendingMetas : List BlockMeta → Bool
  | [] => true
  | [_] => true
  | m1 :: m2 :: rest => bytesLt m1.first_key m2.first_key && ascendingMetas (m2 :: rest)

theorem ascendingMetas_adj (ms : List BlockMeta) (h : ascendingMetas ms = true) :
    ∀ i, i + 1 < ms.length →
      bytesLt ((ms.getD i dfltMeta).first_key) ((ms.getD (i + 1) dfltMeta).first_key)
        = true := by
  induction ms with
  | nil => intro i hi; cases hi
  | cons m1 rest ih =>
    intro i hi
    cases rest with
    | nil => simp at hi
    | cons m2 rest2 =>
      rw [ascendingMetas, Bool.and_eq_true] at h
      cases i with
      | zero =>
        simpa using h.1
      | succ k =>
        rw [List.getD_cons_succ, List.getD_cons_succ]
        exact ih h.2 k (by simpa [List.length_cons] using hi)

/-- C6: find_block_idx returns the largest index whose first key is at
most the probe key, saturating at zero: either the result is 0 with
the key below the second first key (when one exists), or the chosen
meta has first_key ≤ key and the next meta (if any) has first_key
above the key. -/
theorem find_block_idx_spec (t : SsTable) (key : List Nat)
    (hasc : ascendingMetas t.block_metas = true) :
    (t.find_block_idx key = 0
      ∧ (1 < t.block_metas.length →
          bytesLt key ((t.block_metas.getD 1 dfltMeta).first_key) = true))
    ∨ (bytesLe ((t.block_metas.getD (t.find_block_idx key) dfltMeta).first_key) key
          = true
        ∧ (t.find_block_idx key + 1 = t.block_metas.length
          ∨ bytesLt key
              ((t.block_metas.getD (t.find_block_idx key + 1) dfltMeta).first_key)
              = true)) := by
  have hle := partitionPoint_le_length
    (fun meta => bytesLe meta.first_key key) t.block_metas
  cases hpp : partitionPoint (fun meta => bytesLe meta.first_key key) t.block_metas with
  | zero =>
    left
    constructor
    · rw [SsTable.find_block_idx, hpp]
    · intro hn
      have hat := partitionPoint_at (fun meta => bytesLe meta.first_key key)
        t.block_metas dfltMeta (by omega)
      rw [hpp] at hat
      have hlt0 : bytesLt key ((t.block_metas.getD 0 dfltMeta).first_key) = true :=
        bytesLt_of_not_bytesLe _ _ hat
      have hadj := ascendingMetas_adj t.block_metas hasc 0 (by omega)
      exact bytesLt_trans key _ _ hlt0 hadj
  | succ m =>
    right
    have hj : t.find_block_idx key = m := by
      rw [SsTable.find_block_idx, hpp]
      omega
    rw [hj]
    constructor
    · exact partitionPoint_pre (fun meta => bytesLe meta.first_key key)
        t.block_metas dfltMeta m (by omega)
    · by_cases hend : m + 1 = t.block_metas.length
      · exact Or.inl hend
      · right
        have hat := partitionPoint_at (fun meta => bytesLe meta.first_key key)
          t.block_metas dfltMeta (by omega)
        rw [hpp] at hat
        exact bytesLt_of_not_bytesLe _ _ hat

/-- Witness for C6 at a concrete two-block meta index. -/
theorem find_block_idx_spec_witness :
    ((⟨[], [⟨0, [1]⟩, ⟨10, [3]⟩], 20, 0, []⟩ : SsTable).find_block_idx [2] = 0
      ∧ (1 < (⟨[], [⟨0, [1]⟩, ⟨10, [3]⟩], 20, 0, []⟩ : SsTable).block_metas.length →
          bytesLt [2] (((⟨[], [⟨0, [1]⟩, ⟨10, [3]⟩], 20, 0, []⟩ : SsTable).block_metas.getD
            1 dfltMeta).first_key) = true))
    ∨ (bytesLe (((⟨[], [⟨0, [1]⟩, ⟨10, [3]⟩], 20, 0, []⟩ : SsTable).block_metas.getD
          ((⟨[], [⟨0, [1]⟩, ⟨10, [3]⟩], 20, 0, []⟩ : SsTable).find_block_idx [2])
          dfltMeta).first_key) [2] = true
        ∧ ((⟨[], [⟨0, [1]⟩, ⟨10, [3]⟩], 20, 0, []⟩ : SsTable).find_block_idx [2] + 1
            = (⟨[], [⟨0, [1]⟩, ⟨10, [3]⟩], 20, 0, []⟩ : SsTable).block_metas.length
          ∨ bytesLt [2]
              (((⟨[], [⟨0, [1]⟩, ⟨10, [3]⟩], 20, 0, []⟩ : SsTable).block_metas.getD
                ((⟨[], [⟨0, [1]⟩, ⟨10, [3]⟩], 20, 0, []⟩ : SsTable).find_block_idx [2] + 1)
                dfltMeta).first_key) = true)) :=
  find_block_idx_spec ⟨[], [⟨0, [1]⟩, ⟨10, [3]⟩], 20, 0, []⟩ [2] (by decide)

/-! ## BlockMeta codec (table.rs) -/

/-- BlockMeta::encode_block_meta: for each meta append
`offset(u32) | first_key_len(u16) | first_key` (the reserve and size
assertion in the source are capacity bookkeeping with no observable
effect on the bytes). -/
def encodeBlockMeta : List BlockMeta → List Nat
  | [] => []
  | m :: rest =>
    u32be m.offset ++ u16be m.first_key.length ++ m.first_key ++ encodeBlockMeta rest

/-- BlockMeta::decode_block_meta: while bytes remain, read a u32
offset, a u16 key length and that many key bytes. When fewer than six
bytes remain, or fewer key bytes than announced, the source panics
inside get_u32, get_u16 or copy_to_bytes; the model stops instead
(take is total), which agrees with the source on every well-formed
buffer. -/
def decodeBlockMeta : List Nat → List BlockMeta
  | a :: b :: c :: d :: e :: f :: rest =>
    ⟨((a * 256 + b) * 256 + c) * 256 + d, rest.take (e * 256 + f)⟩
      :: decodeBlockMeta (rest.drop (e * 256 + f))
  | _ => []
termination_by l => l.length
decreasing_by
  simp only [List.length_drop, List.length_cons]
  omega

theorem decodeBlockMeta_encodeBlockMeta (ms : List BlockMeta)
    (h : ∀ m ∈ ms, m.first_key.length < 65536 ∧ m.offset < 4294967296) :
    decodeBlockMeta (encodeBlockMeta ms) = ms := by
  induction ms with
  | nil => simp [encodeBlockMeta, decodeBlockMeta]
  | cons m rest ih =>
    obtain ⟨hk, ho⟩ := h m (List.mem_cons_self m rest)
    have ih' := ih (fun x hx => h x (List.mem_cons_of_mem m hx))
    show decodeBlockMeta
        ((m.offset % 4294967296 / 16777216) :: (m.offset % 16777216 / 65536)
          :: (m.offset % 65536 / 256) :: (m.offset % 256)
          :: (m.first_key.length % 65536 / 256) :: (m.first_key.length % 256)
          :: (m.first_key ++ encodeBlockMeta rest))
      = m :: rest
    rw [decodeBlockMeta]
    have hkl : (m.first_key.length % 65536 / 256) * 256 + m.first_key.length % 256
        = m.first_key.length := by omega
    rw [hkl]
    have hofs : (((m.offset % 4294967296 / 16777216) * 256
        + m.offset % 16777216 / 65536) * 256
        + m.offset % 65536 / 256) * 256 + m.offset % 256 = m.offset := by omega
    rw [hofs, List.take_left, List.drop_left, ih']

/-! ## SsTableBuilder (table/builder.rs) and SsTable open and read (table.rs) -/

/-- SsTableBuilder. The fields builder, first_key, data, meta and
block_size mirror the source struct. The last three fields are ghost
instrumentation with no source counterpart, used only to state
theorems: blocks records every Block emitted by finish_block,
blockEntries the entries each emitted block received, and curEntries
the entries of the block in progress; the modelled code paths never
read them. -/
structure SsTableBuilder where
  builder : BlockBuilder
  first_key : List Nat
  data : List Nat
  meta : List BlockMeta
  block_size : Nat
  blocks : List Block
  blockEntries : List (List (List Nat × List Nat))
  curEntries : List (List Nat × List Nat)
deriving DecidableEq, Repr

def SsTableBuilder.new (block_size : Nat) : SsTableBuilder :=
  ⟨BlockBuilder.new block_size, [], [], [], block_size, [], [], []⟩

/-- SsTableBuilder::finish_block: emit the current block, record a
meta with the block starting offset (data length before the append)
and the tracked first key, then reset the inner builder and the first
key tracker. -/
def SsTableBuilder.finish_block (s : SsTableBuilder) : SsTableBuilder :=
  { builder := BlockBuilder.new s.block_size
    first_key := []
    data := s.data ++ s.builder.build.encode
    meta := s.meta ++ [⟨s.data.length, s.first_key⟩]
    block_size := s.block_size
    blocks := s.blocks ++ [s.builder.build]
    blockEntries := s.blockEntries ++ [s.curEntries]
    curEntries := [] }

/-- SsTableBuilder::add: record the first key when the tracker is
empty; try the inner builder; on rejection finish the current block,
re-add into the fresh builder (which must accept) and reset the first
key tracker to this key. -/
def SsTableBuilder.add (s : SsTableBuilder) (k v : List Nat) : SsTableBuilder :=
  let s1 := if s.first_key = [] then { s with first_key := k } else s
  if (s1.builder.add k v).1 then
    { s1 with builder := (s1.builder.add k v).2,
              curEntries := s1.curEntries ++ [(k, v)] }
  else
    let s2 := s1.finish_block
    { s2 with builder := (s2.builder.add k v).2,
              first_key := k,
              curEntries := [(k, v)] }

/-- Feed a sequence of entries through SsTableBuilder::add. -/
def streamAdds (s : SsTableBuilder) (es : List (List Nat × List Nat)) : SsTableBuilder :=
  es.foldl (fun s e => s.add e.1 e.2) s

/-- The file bytes SsTableBuilder::build writes: finish the last
block, append the encoded metas, then the meta offset as u32. -/
def SsTableBuilder.buildBytes (s : SsTableBuilder) : List Nat :=
  s.finish_block.data ++ encodeBlockMeta s.finish_block.meta
    ++ u32be s.finish_block.data.length

/-- SsTableBuilder::build: the returned SsTable carries the written
file, the builder metas, the meta offset and the id (the block cache
and the path are omitted: the cache only memoizes read_block and the
path only names the file). The ghost entries field collects the
streamed entries. -/
def SsTableBuilder.build (s : SsTableBuilder) (id : Nat) : SsTable :=
  { file := s.buildBytes
    block_metas := s.finish_block.meta
    block_meta_offset := s.finish_block.data.length
    id := id
    entries := s.finish_block.blockEntries.flatten }

/-- FileObject::read: `len` bytes starting at `offset` (read_exact_at;
a short read errors in the source, the model is total and theorems
stay within bounds). -/
def fileRead (f : List Nat) (offset len : Nat) : List Nat :=
  (f.drop offset).take len

/-- SsTable::open: read the trailing u32 meta offset, slice the meta
region `[meta_offset, len - 4)`, decode the metas. The ghost entries
field is unknown for a raw file and left empty; it plays no role in
any modelled code path. -/
def SsTable.open (id : Nat) (file : List Nat) : SsTable :=
  { file := file
    block_metas := decodeBlockMeta (fileRead file
      (readU32 (fileRead file (file.length - 4) 4))
      (file.length - 4 - readU32 (fileRead file (file.length - 4) 4)))
    block_meta_offset := readU32 (fileRead file (file.length - 4) 4)
    id := id
    entries := [] }

/-- SsTable::read_block: the block spans from the meta offset of idx
to the meta offset of idx + 1 when that meta exists, otherwise to the
meta region offset; read exactly those bytes and decode them. The
source indexes block_metas[idx] directly (panicking out of bounds);
theorems carry the bound. -/
def SsTable.read_block (t : SsTable) (idx : Nat) : Block :=
  Block.decode (fileRead t.file ((t.block_metas.getD idx dfltMeta).offset)
    ((match t.block_metas.get? (idx + 1) with
      | some m => m.offset
      | none => t.block_meta_offset) - (t.block_metas.getD idx dfltMeta).offset))

/-- Total encoded length of a run of blocks. -/
def lensum (bs : List Block) : Nat := (bs.map (fun b => b.encode.length)).sum

/-- Strict ascent of the keys of an entry sequence. -/
def ascendingKeys : List (List Nat × List Nat) → Bool
  | [] => true
  | [_] => true
  | e1 :: e2 :: rest => bytesLt e1.1 e2.1 && ascendingKeys (e2 :: rest)

/-! ## Structural invariant of the streaming SST builder -/

theorem lensum_append (bs1 bs2 : List Block) :
    lensum (bs1 ++ bs2) = lensum bs1 + lensum bs2 := by
  simp [lensum]

theorem flatten_map_length (bs : List Block) :
    ((bs.map Block.encode).flatten).length = lensum bs := by
  induction bs with
  | nil => rfl
  | cons b rest ih =>
    simp only [List.map_cons, List.flatten_cons, List.length_append, ih]
    simp [lensum]

theorem headD_append_ne {α : Type} (l l2 : List α) (d : α) (h : l ≠ []) :
    (l ++ l2).headD d = l.headD d := by
  cases l with
  | nil => exact absurd rfl h
  | cons a rest => rfl

theorem getD_concat_length {α : Type} (l : List α) (x d : α) :
    (l ++ [x]).getD l.length d = x := by
  induction l with
  | nil => rfl
  | cons a rest ih => simpa using ih

/-- The structural invariant the SsTableBuilder maintains: the data
buffer is the concatenation of the encoded emitted blocks, each meta
records the starting offset and the first added key of its block, the
first key tracker mirrors the head of the entries of the block in
progress, and every recorded block offset fits in u16. -/
structure SstInv (s : SsTableBuilder) : Prop where
  mlen : s.meta.length = s.blocks.length
  blen : s.blocks.length = s.blockEntries.length
  dj : s.data = (s.blocks.map Block.encode).flatten
  moff : ∀ i, i < s.meta.length →
    (s.meta.getD i dfltMeta).offset = lensum (s.blocks.take i)
  mfk : ∀ i, i < s.meta.length →
    (s.meta.getD i dfltMeta).first_key = ((s.blockEntries.getD i []).headD ([], [])).1
  bene : ∀ es ∈ s.blockEntries, es ≠ []
  mshort : ∀ m ∈ s.meta, m.first_key.length < 65536
  boff : ∀ b ∈ s.blocks, ∀ o ∈ b.offsets, o < 65536
  crel : s.builder.offsets = [] ↔ s.curEntries = []
  fkh : s.curEntries ≠ [] → s.first_key = (s.curEntries.headD ([], [])).1
  fknil : s.curEntries = [] → s.first_key = []
  fkne : s.curEntries ≠ [] → s.first_key ≠ []
  fkshort : s.first_key.length < 65536
  bofflt : ∀ o ∈ s.builder.offsets, o < 65536

theorem sstInv_new (B : Nat) : SstInv (SsTableBuilder.new B) := by
  refine ⟨rfl, rfl, rfl, ?_, ?_, ?_, ?_, ?_, ?_, ?_, ?_, ?_, ?_, ?_⟩
  · intro i hi; cases hi
  · intro i hi; cases hi
  · intro es hes; cases hes
  · intro m hm; cases hm
  · intro b hb; cases hb
  · exact ⟨fun _ => rfl, fun _ => rfl⟩
  · intro h; exact absurd rfl h
  · intro _; rfl
  · intro h; exact absurd rfl h
  · exact Nat.zero_lt_succ _
  · intro o ho; cases ho

theorem sstInv_finish (s : SsTableBuilder) (hs : SstInv s)
    (hne : s.curEntries ≠ []) : SstInv s.finish_block := by
  obtain ⟨mlen, blen, dj, moff, mfk, bene, mshort, boff, crel, fkh, fknil, fkne,
    fkshort, bofflt⟩ := hs
  refine ⟨?_, ?_, ?_, ?_, ?_, ?_, ?_, ?_, ?_, ?_, ?_, ?_, ?_, ?_⟩
  · simp [SsTableBuilder.finish_block, mlen]
  · simp [SsTableBuilder.finish_block, blen]
  · show s.data ++ s.builder.build.encode
      = ((s.blocks ++ [s.builder.build]).map Block.encode).flatten
    rw [List.map_append, List.flatten_append, dj]
    simp
  · intro i hi
    show ((s.meta ++ [BlockMeta.mk s.data.length s.first_key]).getD i dfltMeta).offset
      = lensum ((s.blocks ++ [s.builder.build]).take i)
    simp only [SsTableBuilder.finish_block, List.length_append,
      List.length_cons, List.length_nil] at hi
    by_cases hilt : i < s.meta.length
    · rw [List.getD_append _ _ _ _ hilt,
        List.take_append_of_le_length (by omega), moff i hilt]
    · have hieq : i = s.meta.length := by omega
      subst hieq
      rw [getD_concat_length]
      show s.data.length = lensum ((s.blocks ++ [s.builder.build]).take s.meta.length)
      rw [List.take_append_of_le_length (by omega), mlen, List.take_length]
      rw [dj, flatten_map_length]
  · intro i hi
    show ((s.meta ++ [BlockMeta.mk s.data.length s.first_key]).getD i dfltMeta).first_key
      = (((s.blockEntries ++ [s.curEntries]).getD i []).headD ([], [])).1
    simp only [SsTableBuilder.finish_block, List.length_append,
      List.length_cons, List.length_nil] at hi
    by_cases hilt : i < s.meta.length
    · rw [List.getD_append _ _ _ _ hilt,
        List.getD_append _ _ _ _ (by omega), mfk i hilt]
    · have hieq : i = s.meta.length := by omega
      subst hieq
      rw [getD_concat_length]
      show s.first_key = (((s.blockEntries ++ [s.curEntries]).getD s.meta.length []).headD
        ([], [])).1
      rw [show s.meta.length = s.blockEntries.length from by omega, getD_concat_length]
      exact fkh hne
  · intro es hes
    rcases List.mem_append.mp hes with h1 | h2
    · exact bene es h1
    · rw [List.mem_singleton.mp h2]
      exact hne
  · intro m hm
    rcases List.mem_append.mp hm with h1 | h2
    · exact mshort m h1
    · rw [List.mem_singleton.mp h2]
      exact fkshort
  · intro b hb
    rcases List.mem_append.mp hb with h1 | h2
    · exact boff b h1
    · rw [List.mem_singleton.mp h2]
      exact bofflt
  · constructor
    · intro _; rfl
    · intro _; rfl
  · intro h; exact absurd rfl h
  · intro _; rfl
  · intro h; exact absurd rfl h
  · exact Nat.zero_lt_succ _
  · intro o ho; cases ho

theorem sst_add_eq_accept (s : SsTableBuilder) (k v : List Nat)
    (h1 : s.first_key ≠ []) (hacc : (s.builder.add k v).1 = true) :
    s.add k v = { s with builder := (s.builder.add k v).2,
                         curEntries := s.curEntries ++ [(k, v)] } := by
  show (if ((if s.first_key = [] then { s with first_key := k } else s).builder.add k v).1
      then _ else _) = _
  rw [if_neg h1]
  rw [if_pos hacc]

theorem sst_add_eq_accept_fk (s : SsTableBuilder) (k v : List Nat)
    (h1 : s.first_key = []) (hacc : (s.builder.add k v).1 = true) :
    s.add k v = { s with first_key := k,
                         builder := (s.builder.add k v).2,
                         curEntries := s.curEntries ++ [(k, v)] } := by
  show (if ((if s.first_key = [] then { s with first_key := k } else s).builder.add k v).1
      then _ else _) = _
  rw [if_pos h1]
  rw [if_pos hacc]

theorem sst_add_eq_reject (s : SsTableBuilder) (k v : List Nat)
    (h1 : s.first_key ≠ []) (hrej : (s.builder.add k v).1 = false) :
    s.add k v = { s.finish_block with
                    builder := ((BlockBuilder.new s.block_size).add k v).2,
                    first_key := k,
                    curEntries := [(k, v)] } := by
  show (if ((if s.first_key = [] then { s with first_key := k } else s).builder.add k v).1
      then _ else _) = _
  rw [if_neg h1]
  rw [if_neg (by rw [hrej]; exact Bool.false_ne_true)]
  rfl

theorem sstInv_add (s : SsTableBuilder) (hs : SstInv s) (k v : List Nat)
    (hk : k ≠ []) (hks : k.length < 65536) : SstInv (s.add k v) := by
  by_cases hfk : s.first_key = []
  · have hcur : s.curEntries = [] := by
      by_contra hcne
      exact (hs.fkne hcne) hfk
    have hoffs : s.builder.offsets = [] := hs.crel.mpr hcur
    have hemp : s.builder.is_empty = true := by
      rw [BlockBuilder.is_empty, hoffs]
      rfl
    have hacc : (s.builder.add k v).1 = true := by
      rw [add_of_empty s.builder k v hemp]
    rw [sst_add_eq_accept_fk s k v hfk hacc]
    have hb2 := add_accepted_eq s.builder k v hacc
    refine ⟨hs.mlen, hs.blen, hs.dj, hs.moff, hs.mfk, hs.bene, hs.mshort, hs.boff,
      ?_, ?_, ?_, ?_, ?_, ?_⟩
    · rw [hb2]
      constructor <;> intro h <;> simp at h
    · intro _
      show k = ((s.curEntries ++ [(k, v)]).headD ([], [])).1
      rw [hcur]
      rfl
    · intro h
      simp at h
    · intro _
      exact hk
    · exact hks
    · rw [hb2]
      intro o ho
      rcases List.mem_append.mp ho with h1 | h2
      · exact hs.bofflt o h1
      · rw [List.mem_singleton.mp h2]
        exact Nat.mod_lt _ (by omega)
  · have hcur : s.curEntries ≠ [] := by
      intro hceq
      exact hfk (hs.fknil hceq)
    by_cases hacc : (s.builder.add k v).1 = true
    · rw [sst_add_eq_accept s k v hfk hacc]
      have hb2 := add_accepted_eq s.builder k v hacc
      refine ⟨hs.mlen, hs.blen, hs.dj, hs.moff, hs.mfk, hs.bene, hs.mshort, hs.boff,
        ?_, ?_, ?_, ?_, ?_, ?_⟩
      · rw [hb2]
        constructor <;> intro h <;> simp at h
      · intro _
        show s.first_key = ((s.curEntries ++ [(k, v)]).headD ([], [])).1
        rw [headD_append_ne s.curEntries [(k, v)] ([], []) hcur]
        exact hs.fkh hcur
      · intro h
        simp at h
      · intro _
        exact hs.fkne hcur
      · exact hs.fkshort
      · rw [hb2]
        intro o ho
        rcases List.mem_append.mp ho with h1 | h2
        · exact hs.bofflt o h1
        · rw [List.mem_singleton.mp h2]
          exact Nat.mod_lt _ (by omega)
    · have hrej : (s.builder.add k v).1 = false := by
        cases hab : (s.builder.add k v).1
        · rfl
        · exact absurd hab hacc
      rw [sst_add_eq_reject s k v hfk hrej]
      have hfin := sstInv_finish s hs hcur
      have hemp2 : (BlockBuilder.new s.block_size).is_empty = true := rfl
      have hacc2 : ((BlockBuilder.new s.block_size).add k v).1 = true := by
        rw [add_of_empty _ k v hemp2]
      have hb2 := add_accepted_eq (BlockBuilder.new s.block_size) k v hacc2
      refine ⟨hfin.mlen, hfin.blen, hfin.dj, hfin.moff, hfin.mfk, hfin.bene,
        hfin.mshort, hfin.boff, ?_, ?_, ?_, ?_, ?_, ?_⟩
      · rw [hb2]
        constructor <;> intro h <;> simp at h
      · intro _
        rfl
      · intro h
        simp at h
      · intro _
        exact hk
      · exact hks
      · rw [hb2]
        intro o ho
        rcases List.mem_append.mp ho with h1 | h2
        · cases h1
        · rw [List.mem_singleton.mp h2]
          exact Nat.mod_lt _ (by omega)

theorem sst_add_eq_reject_fk (s : SsTableBuilder) (k v : List Nat)
    (h1 : s.first_key = []) (hrej : (s.builder.add k v).1 = false) :
    s.add k v = { ({ s with first_key := k } : SsTableBuilder).finish_block with
                    builder := ((BlockBuilder.new s.block_size).add k v).2,
                    first_key := k,
                    curEntries := [(k, v)] } := by
  show (if ((if s.first_key = [] then { s with first_key := k } else s).builder.add k v).1
      then _ else _) = _
  rw [if_pos h1]
  rw [if_neg (by rw [hrej]; exact Bool.false_ne_true)]
  rfl

theorem sst_add_curEntries_ne (s : SsTableBuilder) (k v : List Nat) :
    (s.add k v).curEntries ≠ [] := by
  by_cases h1 : s.first_key = [] <;> by_cases h2 : (s.builder.add k v).1 = true
  · rw [sst_add_eq_accept_fk s k v h1 h2]
    simp
  · rw [sst_add_eq_reject_fk s k v h1 (Bool.eq_false_iff.mpr h2)]
    simp
  · rw [sst_add_eq_accept s k v h1 h2]
    simp
  · rw [sst_add_eq_reject s k v h1 (Bool.eq_false_iff.mpr h2)]
    simp

theorem streamAdds_nil (s : SsTableBuilder) : streamAdds s [] = s := rfl

theorem streamAdds_cons (s : SsTableBuilder) (e : List Nat × List Nat)
    (es : List (List Nat × List Nat)) :
    streamAdds s (e :: es) = streamAdds (s.add e.1 e.2) es := rfl

theorem sstInv_stream (es : List (List Nat × List Nat)) :
    ∀ s : SsTableBuilder, SstInv s →
    (∀ e ∈ es, e.1 ≠ [] ∧ e.1.length < 65536) →
    SstInv (streamAdds s es) := by
  induction es with
  | nil =>
    intro s hs _
    exact hs
  | cons e rest ih =>
    intro s hs hkeys
    rw [streamAdds_cons]
    have hk := hkeys e (List.mem_cons_self e rest)
    exact ih _ (sstInv_add s hs e.1 e.2 hk.1 hk.2)
      (fun x hx => hkeys x (List.mem_cons_of_mem e hx))

theorem stream_cur_ne : ∀ (es : List (List Nat × List Nat)) (s : SsTableBuilder),
    es ≠ [] → (streamAdds s es).curEntries ≠ [] := by
  intro es
  induction es with
  | nil =>
    intro s h
    exact absurd rfl h
  | cons e rest ih =>
    intro s _
    rw [streamAdds_cons]
    cases rest with
    | nil => exact sst_add_curEntries_ne s e.1 e.2
    | cons e2 r2 => exact ih (s.add e.1 e.2) (by simp)

theorem getD_mem {α : Type} (l : List α) (i : Nat) (d : α) (h : i < l.length) :
    l.getD i d ∈ l := by
  induction l generalizing i with
  | nil => cases h
  | cons a rest ih =>
    cases i with
    | zero =>
      rw [List.getD_cons_zero]
      exact List.mem_cons_self a rest
    | succ j =>
      rw [List.getD_cons_succ]
      exact List.mem_cons_of_mem a (ih j (by simpa using h))

theorem mem_getD_index {α : Type} (l : List α) (x : α) (hx : x ∈ l) (d : α) :
    ∃ i, i < l.length ∧ l.getD i d = x := by
  induction l with
  | nil => cases hx
  | cons a rest ih =>
    rcases List.mem_cons.mp hx with rfl | hmem
    · exact ⟨0, by simp, by rw [List.getD_cons_zero]⟩
    · obtain ⟨i, hi, hg⟩ := ih hmem
      exact ⟨i + 1, by simpa using hi, by rw [List.getD_cons_succ]; exact hg⟩

theorem lensum_take_le (bs : List Block) (i : Nat) :
    lensum (bs.take i) ≤ lensum bs := by
  conv_rhs => rw [← List.take_append_drop i bs]
  rw [lensum_append]
  omega

/-- SsTable::open applied to the bytes SsTableBuilder::build wrote
recovers the builder metas and the meta offset. -/
theorem open_buildBytes (s : SsTableBuilder) (tid : Nat)
    (hmetas : ∀ m ∈ s.finish_block.meta,
      m.first_key.length < 65536 ∧ m.offset < 4294967296)
    (hfit : s.finish_block.data.length < 4294967296) :
    SsTable.open tid s.buildBytes
      = ⟨s.buildBytes, s.finish_block.meta, s.finish_block.data.length, tid, []⟩ := by
  have hbuf : s.buildBytes
      = (s.finish_block.data ++ encodeBlockMeta s.finish_block.meta)
        ++ u32be s.finish_block.data.length := by
    rw [SsTableBuilder.buildBytes, List.append_assoc]
  have hlen : s.buildBytes.length
      = s.finish_block.data.length + (encodeBlockMeta s.finish_block.meta).length + 4 := by
    rw [hbuf]
    simp [u32be]
    omega
  have htrailer : fileRead s.buildBytes (s.buildBytes.length - 4) 4
      = u32be s.finish_block.data.length := by
    show (s.buildBytes.drop (s.buildBytes.length - 4)).take 4
      = u32be s.finish_block.data.length
    rw [hlen, hbuf]
    rw [show s.finish_block.data.length + (encodeBlockMeta s.finish_block.meta).length + 4 - 4
        = ((s.finish_block.data ++ encodeBlockMeta s.finish_block.meta)).length from by
          rw [List.length_append]; omega]
    rw [List.drop_left]
    rw [show (4 : Nat) = (u32be s.finish_block.data.length).length from rfl, List.take_length]
  have hmo : readU32 (fileRead s.buildBytes (s.buildBytes.length - 4) 4)
      = s.finish_block.data.length := by
    rw [htrailer]
    have := readU32_u32be s.finish_block.data.length []
    simpa [Nat.mod_eq_of_lt hfit] using this
  have hmeta : fileRead s.buildBytes s.finish_block.data.length
      (s.buildBytes.length - 4 - s.finish_block.data.length)
      = encodeBlockMeta s.finish_block.meta := by
    have hdropped : s.buildBytes.drop s.finish_block.data.length
        = encodeBlockMeta s.finish_block.meta ++ u32be s.finish_block.data.length := by
      rw [SsTableBuilder.buildBytes, List.append_assoc]
      exact List.drop_left _ _
    show (s.buildBytes.drop s.finish_block.data.length).take
        (s.buildBytes.length - 4 - s.finish_block.data.length)
      = encodeBlockMeta s.finish_block.meta
    rw [hdropped, hlen]
    rw [show s.finish_block.data.length + (encodeBlockMeta s.finish_block.meta).length
          + 4 - 4 - s.finish_block.data.length
        = (encodeBlockMeta s.finish_block.meta).length from by omega]
    exact List.take_left _ _
  show (⟨s.buildBytes,
      decodeBlockMeta (fileRead s.buildBytes
        (readU32 (fileRead s.buildBytes (s.buildBytes.length - 4) 4))
        (s.buildBytes.length - 4
          - readU32 (fileRead s.buildBytes (s.buildBytes.length - 4) 4))),
      readU32 (fileRead s.buildBytes (s.buildBytes.length - 4) 4), tid, []⟩ : SsTable)
    = _
  rw [hmo, hmeta, decodeBlockMeta_encodeBlockMeta _ hmetas]

/-- C7: streaming a strictly ascending non-empty sequence of entries
through SsTableBuilder::add, finishing with build and re-opening the
written file yields exactly one decoded meta per emitted block, and
the ith meta carries the first key added to the ith block. The size
hypotheses restate the wire format domains (u16 key length, u32
offsets). -/
theorem sst_build_open_meta_spec (B tid : Nat) (es : List (List Nat × List Nat))
    (hne : es ≠ [])
    (hkeys : ∀ e ∈ es, e.1 ≠ [] ∧ e.1.length < 65536)
    (hasc : ascendingKeys es = true)
    (hfit : (streamAdds (SsTableBuilder.new B) es).finish_block.data.length
      < 4294967296) :
    (SsTable.open tid
        ((streamAdds (SsTableBuilder.new B) es).buildBytes)).block_metas.length
      = (streamAdds (SsTableBuilder.new B) es).finish_block.blocks.length
    ∧ (∀ i, i < (streamAdds (SsTableBuilder.new B) es).finish_block.blocks.length →
        ((SsTable.open tid
            ((streamAdds (SsTableBuilder.new B) es).buildBytes)).block_metas.getD i
            dfltMeta).first_key
          = (((streamAdds (SsTableBuilder.new B) es).finish_block.blockEntries.getD i
              []).headD ([], [])).1) := by
  have hS := sstInv_stream es (SsTableBuilder.new B) (sstInv_new B) hkeys
  have hcur := stream_cur_ne es (SsTableBuilder.new B) hne
  have hF := sstInv_finish _ hS hcur
  have hdlen : (streamAdds (SsTableBuilder.new B) es).finish_block.data.length
      = lensum (streamAdds (SsTableBuilder.new B) es).finish_block.blocks := by
    rw [hF.dj, flatten_map_length]
  have hmetas : ∀ m ∈ (streamAdds (SsTableBuilder.new B) es).finish_block.meta,
      m.first_key.length < 65536 ∧ m.offset < 4294967296 := by
    intro m hm
    refine ⟨hF.mshort m hm, ?_⟩
    obtain ⟨i, hi, hg⟩ := mem_getD_index _ m hm dfltMeta
    rw [← hg, hF.moff i hi]
    have h1 := lensum_take_le (streamAdds (SsTableBuilder.new B) es).finish_block.blocks i
    omega
  have hopen := open_buildBytes (streamAdds (SsTableBuilder.new B) es) tid hmetas hfit
  constructor
  · rw [hopen]
    exact hF.mlen
  · intro i hi
    rw [hopen]
    show ((streamAdds (SsTableBuilder.new B) es).finish_block.meta.getD i
        dfltMeta).first_key = _
    exact hF.mfk i (by rw [hF.mlen]; exact hi)

/-- Witness for C7 at a concrete two-block stream. -/
theorem sst_build_open_meta_spec_witness :
    (SsTable.open 7
        ((streamAdds (SsTableBuilder.new 16) [([1], [2]), ([3], [4])]).buildBytes)).block_metas.length
      = (streamAdds (SsTableBuilder.new 16)
          [([1], [2]), ([3], [4])]).finish_block.blocks.length
    ∧ (∀ i, i < (streamAdds (SsTableBuilder.new 16)
          [([1], [2]), ([3], [4])]).finish_block.blocks.length →
        ((SsTable.open 7
            ((streamAdds (SsTableBuilder.new 16)
              [([1], [2]), ([3], [4])]).buildBytes)).block_metas.getD i
            dfltMeta).first_key
          = (((streamAdds (SsTableBuilder.new 16)
              [([1], [2]), ([3], [4])]).finish_block.blockEntries.getD i
              []).headD ([], [])).1) :=
  sst_build_open_meta_spec 16 7 [([1], [2]), ([3], [4])] (by decide)
    (by decide) (by decide) (by decide)

theorem drop_append_len {α : Type} (l1 l2 : List α) (n : Nat) :
    (l1 ++ l2).drop (l1.length + n) = l2.drop n := by
  induction l1 with
  | nil => simp
  | cons a t ih =>
    rw [show (a :: t).length + n = (t.length + n) + 1 from by
      rw [List.length_cons]; omega]
    rw [List.cons_append, List.drop_succ_cons]
    exact ih

theorem get?_lt {α : Type} (l : List α) (i : Nat) (d : α) (h : i < l.length) :
    l.get? i = some (l.getD i d) := by
  induction l generalizing i with
  | nil => cases h
  | cons a t ih =>
    cases i with
    | zero => rfl
    | succ j =>
      rw [List.getD_cons_succ]
      exact ih j (by simpa using h)

/-- The byte slice of the concatenated encoded blocks between the
cumulative offsets of block idx and block idx + 1 is exactly the
encoding of block idx, for any trailing bytes. -/
theorem flatten_slice (bs : List Block) : ∀ idx, idx < bs.length → ∀ rest : List Nat,
    (((bs.map Block.encode).flatten ++ rest).drop (lensum (bs.take idx))).take
        (lensum (bs.take (idx + 1)) - lensum (bs.take idx))
      = Block.encode (bs.getD idx ⟨[], []⟩) := by
  induction bs with
  | nil =>
    intro idx h
    cases h
  | cons b bs2 ih =>
    intro idx hidx rest
    cases idx with
    | zero =>
      rw [show (b :: bs2).take 0 = [] from rfl,
        show (b :: bs2).take (0 + 1) = [b] from rfl,
        show (b :: bs2).getD 0 ⟨[], []⟩ = b from rfl,
        show lensum ([] : List Block) = 0 from rfl]
      simp only [List.drop_zero, Nat.sub_zero]
      rw [show lensum [b] = b.encode.length from by simp [lensum]]
      rw [show ((b :: bs2).map Block.encode).flatten ++ rest
          = Block.encode b ++ ((bs2.map Block.encode).flatten ++ rest) from by
            simp [List.append_assoc]]
      exact List.take_left _ _
    | succ j =>
      rw [show (b :: bs2).take (j + 1) = b :: bs2.take j from rfl,
        show (b :: bs2).take (j + 1 + 1) = b :: bs2.take (j + 1) from rfl,
        List.getD_cons_succ]
      rw [show lensum (b :: bs2.take j) = b.encode.length + lensum (bs2.take j) from by
        simp [lensum]]
      rw [show lensum (b :: bs2.take (j + 1))
          = b.encode.length + lensum (bs2.take (j + 1)) from by simp [lensum]]
      rw [show ((b :: bs2).map Block.encode).flatten ++ rest
          = Block.encode b ++ ((bs2.map Block.encode).flatten ++ rest) from by
            simp [List.append_assoc]]
      rw [drop_append_len]
      rw [show b.encode.length + lensum (bs2.take (j + 1))
            - (b.encode.length + lensum (bs2.take j))
          = lensum (bs2.take (j + 1)) - lensum (bs2.take j) from by omega]
      exact ih j (by simpa using hidx) rest

theorem read_block_eq_of_some (t : SsTable) (idx : Nat) (m : BlockMeta)
    (h : t.block_metas.get? (idx + 1) = some m) :
    t.read_block idx
      = Block.decode (fileRead t.file ((t.block_metas.getD idx dfltMeta).offset)
          (m.offset - (t.block_metas.getD idx dfltMeta).offset)) := by
  rw [SsTable.read_block, h]

theorem read_block_eq_of_none (t : SsTable) (idx : Nat)
    (h : t.block_metas.get? (idx + 1) = none) :
    t.read_block idx
      = Block.decode (fileRead t.file ((t.block_metas.getD idx dfltMeta).offset)
          (t.block_meta_offset - (t.block_metas.getD idx dfltMeta).offset)) := by
  rw [SsTable.read_block, h]

/-- C8: read_block(idx) decodes exactly the bytes from the idx meta
offset up to the next meta offset (or the meta region offset for the
last block); on a file written by the builder this reproduces the idx
block the builder emitted. The first conjunct states the span for
every SsTable and valid index; the second one the round-trip through
the written file. -/
theorem sst_read_block_spec (B tid : Nat) (es : List (List Nat × List Nat))
    (hne : es ≠ [])
    (hkeys : ∀ e ∈ es, e.1 ≠ [] ∧ e.1.length < 65536)
    (hasc : ascendingKeys es = true)
    (hfit : (streamAdds (SsTableBuilder.new B) es).finish_block.data.length
      < 4294967296)
    (hbc : ∀ b ∈ (streamAdds (SsTableBuilder.new B) es).finish_block.blocks,
      b.offsets.length < 65536)
    (idx : Nat)
    (hidx : idx < (streamAdds (SsTableBuilder.new B) es).finish_block.blocks.length) :
    (∀ (t : SsTable) (j : Nat), j < t.block_metas.length →
      t.read_block j
        = Block.decode (fileRead t.file ((t.block_metas.getD j dfltMeta).offset)
            ((if j + 1 < t.block_metas.length
                then (t.block_metas.getD (j + 1) dfltMeta).offset
                else t.block_meta_offset)
              - (t.block_metas.getD j dfltMeta).offset)))
    ∧ (SsTable.open tid
          ((streamAdds (SsTableBuilder.new B) es).buildBytes)).read_block idx
        = (streamAdds (SsTableBuilder.new B) es).finish_block.blocks.getD idx
            ⟨[], []⟩ := by
  have hS := sstInv_stream es (SsTableBuilder.new B) (sstInv_new B) hkeys
  have hcur := stream_cur_ne es (SsTableBuilder.new B) hne
  have hF := sstInv_finish _ hS hcur
  have hdlen : (streamAdds (SsTableBuilder.new B) es).finish_block.data.length
      = lensum (streamAdds (SsTableBuilder.new B) es).finish_block.blocks := by
    rw [hF.dj, flatten_map_length]
  have hmetas : ∀ m ∈ (streamAdds (SsTableBuilder.new B) es).finish_block.meta,
      m.first_key.length < 65536 ∧ m.offset < 4294967296 := by
    intro m hm
    refine ⟨hF.mshort m hm, ?_⟩
    obtain ⟨i, hi, hg⟩ := mem_getD_index _ m hm dfltMeta
    rw [← hg, hF.moff i hi]
    have h1 := lensum_take_le (streamAdds (SsTableBuilder.new B) es).finish_block.blocks i
    omega
  have hopen := open_buildBytes (streamAdds (SsTableBuilder.new B) es) tid hmetas hfit
  constructor
  · intro t j hj
    by_cases h2 : j + 1 < t.block_metas.length
    · rw [read_block_eq_of_some t j (t.block_metas.getD (j + 1) dfltMeta)
        (get?_lt _ _ dfltMeta h2), if_pos h2]
    · rw [read_block_eq_of_none t j (List.get?_eq_none.mpr (by omega)), if_neg h2]
  · have hmlen : idx < (streamAdds (SsTableBuilder.new B) es).finish_block.meta.length := by
      rw [hF.mlen]
      exact hidx
    have hstart : ((streamAdds (SsTableBuilder.new B) es).finish_block.meta.getD idx
        dfltMeta).offset
        = lensum ((streamAdds (SsTableBuilder.new B) es).finish_block.blocks.take idx) :=
      hF.moff idx hmlen
    have hslice : fileRead ((streamAdds (SsTableBuilder.new B) es).buildBytes)
        (lensum ((streamAdds (SsTableBuilder.new B) es).finish_block.blocks.take idx))
        (lensum ((streamAdds (SsTableBuilder.new B) es).finish_block.blocks.take (idx + 1))
          - lensum
            ((streamAdds (SsTableBuilder.new B) es).finish_block.blocks.take idx))
        = Block.encode
            ((streamAdds (SsTableBuilder.new B) es).finish_block.blocks.getD idx
              ⟨[], []⟩) := by
      show (((streamAdds (SsTableBuilder.new B) es).buildBytes).drop _).take _ = _
      rw [show (streamAdds (SsTableBuilder.new B) es).buildBytes
          = (((streamAdds (SsTableBuilder.new B) es).finish_block.blocks.map
              Block.encode).flatten)
            ++ (encodeBlockMeta (streamAdds (SsTableBuilder.new B) es).finish_block.meta
              ++ u32be
                (streamAdds (SsTableBuilder.new B) es).finish_block.data.length) from by
        rw [SsTableBuilder.buildBytes, List.append_assoc, hF.dj]]
      exact flatten_slice _ idx hidx _
    have hdec : Block.decode (Block.encode
        ((streamAdds (SsTableBuilder.new B) es).finish_block.blocks.getD idx ⟨[], []⟩))
        = (streamAdds (SsTableBuilder.new B) es).finish_block.blocks.getD idx
            ⟨[], []⟩ :=
      Block.decode_encode _ (hbc _ (getD_mem _ idx ⟨[], []⟩ hidx))
        (hF.boff _ (getD_mem _ idx ⟨[], []⟩ hidx))
    by_cases h2 : idx + 1
        < (streamAdds (SsTableBuilder.new B) es).finish_block.meta.length
    · rw [hopen]
      rw [read_block_eq_of_some _ idx
        ((streamAdds (SsTableBuilder.new B) es).finish_block.meta.getD (idx + 1)
          dfltMeta) (get?_lt _ _ dfltMeta h2)]
      show Block.decode (fileRead ((streamAdds (SsTableBuilder.new B) es).buildBytes)
        _ _) = _
      rw [hstart, hF.moff (idx + 1) h2, hslice, hdec]
    · rw [hopen]
      rw [read_block_eq_of_none _ idx (List.get?_eq_none.mpr
        (show (streamAdds (SsTableBuilder.new B) es).finish_block.meta.length ≤ idx + 1
          from by omega))]
      show Block.decode (fileRead ((streamAdds (SsTableBuilder.new B) es).buildBytes)
        ((((streamAdds (SsTableBuilder.new B) es).finish_block.meta).getD idx
          dfltMeta).offset)
        ((streamAdds (SsTableBuilder.new B) es).finish_block.data.length
          - (((streamAdds (SsTableBuilder.new B) es).finish_block.meta).getD idx
            dfltMeta).offset)) = _
      have hend : (streamAdds (SsTableBuilder.new B) es).finish_block.data.length
          = lensum
            ((streamAdds (SsTableBuilder.new B) es).finish_block.blocks.take (idx + 1)) := by
        rw [show idx + 1
            = (streamAdds (SsTableBuilder.new B) es).finish_block.blocks.length from by
          rw [← hF.mlen]; omega]
        rw [List.take_length, hdlen]
      rw [hstart, hend, hslice, hdec]

/-- Witness for C8 at a concrete two-block stream and block index 1. -/
theorem sst_read_block_spec_witness :
    (∀ (t : SsTable) (j : Nat), j < t.block_metas.length →
      t.read_block j
        = Block.decode (fileRead t.file ((t.block_metas.getD j dfltMeta).offset)
            ((if j + 1 < t.block_metas.length
                then (t.block_metas.getD (j + 1) dfltMeta).offset
                else t.block_meta_offset)
              - (t.block_metas.getD j dfltMeta).offset)))
    ∧ (SsTable.open 7
          ((streamAdds (SsTableBuilder.new 16) [([1], [2]), ([3], [4])]).buildBytes)).read_block 1
        = (streamAdds (SsTableBuilder.new 16)
            [([1], [2]), ([3], [4])]).finish_block.blocks.getD 1 ⟨[], []⟩ :=
  sst_read_block_spec 16 7 [([1], [2]), ([3], [4])] (by decide) (by decide)
    (by decide) (by decide) (by decide) 1 (by decide)

/-! ## LSM engine (lsm_storage.rs), with the memtable and the iterator
stack modelled from the spec (their sources are not under src/) -/

/-- Modelled from the spec: the Memtable (mem_table.rs is not under
src/). Spec section 4.6: an ordered mapping from key bytes to value
bytes with put, get and scan; a put with an empty value stores a
tombstone like any other value. Modelled as a key-sorted association
list. -/
structure Memtable where
  entries : List (List Nat × List Nat)
deriving DecidableEq, Repr

def Memtable.create : Memtable := ⟨[]⟩

/-- Modelled from the spec: ordered insert-or-overwrite backing
Memtable::put. -/
def insertSorted (k v : List Nat) :
    List (List Nat × List Nat) → List (List Nat × List Nat)
  | [] => [(k, v)]
  | (k2, v2) :: rest =>
    if bytesLt k k2 = true then (k, v) :: (k2, v2) :: rest
    else if k = k2 then (k, v) :: rest
    else (k2, v2) :: insertSorted k v rest

def Memtable.put (m : Memtable) (k v : List Nat) : Memtable :=
  ⟨insertSorted k v m.entries⟩

/-- Modelled from the spec: Memtable::get returns the stored value for
the key when present. -/
def Memtable.get (m : Memtable) (k : List Nat) : Option (List Nat) :=
  (m.entries.find? (fun e => decide (e.1 = k))).map (fun e => e.2)

/-- Modelled from the spec: Memtable::flush streams every entry in
ascending key order into the SsTableBuilder (spec section 5, flush
step 3). -/
def Memtable.flush (m : Memtable) (builder : SsTableBuilder) : SsTableBuilder :=
  streamAdds builder m.entries

/-- LsmStorageInner (lsm_storage.rs): the copy-on-write snapshot of
the engine state. -/
structure LsmStorageInner where
  memtable : Memtable
  imm_memtable : List Memtable
  l0_sstable : List SsTable
  levels : List (List SsTable)
  next_ssd_id : Nat
deriving DecidableEq, Repr

def LsmStorageInner.create : LsmStorageInner := ⟨Memtable.create, [], [], [], 1⟩

/-- Modelled from the spec: SsTableIterator::create_and_seek_to_key
(table/iterator.rs is not under src/). Spec section 4.5: position at
the first entry whose key is at least the target. The iterator is
modelled by the list of remaining entries of the table (the ghost
entries field of SsTable, which lists the entries of a built table in
ascending key order). -/
def seekToKey (t : SsTable) (key : List Nat) : List (List Nat × List Nat) :=
  t.entries.dropWhile (fun e => bytesLt e.1 key)

/-- Modelled from the spec: the current entry of the MergeIterator
(iterators/merge_iterator.rs is not under src/). Spec section 4.7: a
heap keyed by (key, source index), smaller key first and the smaller
source index winning ties, so the current entry is the first-seen
minimal-key head among the sources scanned in index order; none when
every source is exhausted (the merge iterator is invalid). -/
def mergeCurrent (its : List (List (List Nat × List Nat))) :
    Option (List Nat × List Nat) :=
  its.foldl (fun acc it =>
    match it, acc with
    | [], _ => acc
    | e :: _, none => some e
    | e :: _, some b => if bytesLt e.1 b.1 = true then some e else some b) none

/-- The immutable-memtable probe loop of LsmStorage::get, over the
list already reversed to newest-first order: a hit decides the result
(outer some), tombstones deciding not-found; no hit falls through to
the L0 search. -/
def getFromImms (key : List Nat) : List Memtable → Option (Option (List Nat))
  | [] => none
  | m :: rest =>
    match m.get key with
    | some v => some (if v = [] then none else some v)
    | none => getFromImms key rest

/-- The L0 path of LsmStorage::get: seek every L0 table (newest
first), merge, and if the merge iterator is valid return a copy of its
current value. The source checks neither that the current key equals
the probe key nor that the value is non-empty. -/
def getFromL0 (tables : List SsTable) (key : List Nat) : Option (List Nat) :=
  match mergeCurrent (tables.map (fun t => seekToKey t key)) with
  | some e => some e.2
  | none => none

/-- LsmStorage::get: probe the mutable memtable, then the immutable
memtables newest to oldest (empty value means tombstone, return
not-found), then the L0 tables newest to oldest through the merge
iterator. -/
def lsmGet (s : LsmStorageInner) (key : List Nat) : Option (List Nat) :=
  match s.memtable.get key with
  | some v => if v = [] then none else some v
  | none =>
    match getFromImms key s.imm_memtable.reverse with
    | some r => r
    | none => getFromL0 s.l0_sstable.reverse key

/-- LsmStorage::put: insert into the current memtable under a shared
read guard; no state publication happens on this path (the source
never replaces the inner pointer). The asserts that key and value are
non-empty are carried as hypotheses by the theorems. -/
def lsmPut (s : LsmStorageInner) (key value : List Nat) : LsmStorageInner :=
  { s with memtable := s.memtable.put key value }

/-- LsmStorage::delete: a put of the empty value. -/
def lsmDelete (s : LsmStorageInner) (key : List Nat) : LsmStorageInner :=
  { s with memtable := s.memtable.put key [] }

/-- Phase 1 of LsmStorage::sync under the write lock: swap in a fresh
mutable memtable and push the old one to the back of the immutable
list. -/
def syncPhase1 (s : LsmStorageInner) : LsmStorageInner :=
  { s with memtable := Memtable.create,
           imm_memtable := s.imm_memtable ++ [s.memtable] }

/-- The SST the flush step builds: a fresh SsTableBuilder with block
size 4096 fed by Memtable::flush, finalized with the captured id. -/
def buildSstFromMemtable (m : Memtable) (sstId : Nat) : SsTable :=
  (m.flush (SsTableBuilder.new 4096)).build sstId

/-- LsmStorage::sync, sequential success path: phase 1, build the SST
from the frozen memtable outside the lock, then phase 2 under the
write lock again: pop the immutable list from the back, push the SST
onto l0_sstable and increment next_ssd_id. -/
def lsmSync (s : LsmStorageInner) : LsmStorageInner :=
  { syncPhase1 s with
      imm_memtable := (syncPhase1 s).imm_memtable.dropLast,
      l0_sstable := (syncPhase1 s).l0_sstable
        ++ [buildSstFromMemtable s.memtable s.next_ssd_id],
      next_ssd_id := (syncPhase1 s).next_ssd_id + 1 }

/-- LsmStorage::sync with the outcome of the build step made explicit:
when the SST build fails, the error propagates to the caller through
the question-mark operator after phase 1 has already been published,
so the returned state is the phase 1 state. -/
def lsmSyncResult (s : LsmStorageInner) (buildOk : Bool) :
    Except Unit Unit × LsmStorageInner :=
  if buildOk then (Except.ok (), lsmSync s) else (Except.error (), syncPhase1 s)

/-- C4: a successful sequential sync swaps in a fresh empty memtable,
returns the immutable-memtable list to its pre-sync contents, appends
exactly one SST built from the frozen memtable with id equal to the
pre-sync next_ssd_id, and increments next_ssd_id; levels are
untouched. -/
theorem lsm_sync_spec (s : LsmStorageInner) :
    (lsmSync s).memtable = Memtable.create
    ∧ (lsmSync s).imm_memtable = s.imm_memtable
    ∧ (lsmSync s).l0_sstable
        = s.l0_sstable ++ [buildSstFromMemtable s.memtable s.next_ssd_id]
    ∧ (buildSstFromMemtable s.memtable s.next_ssd_id).id = s.next_ssd_id
    ∧ (lsmSync s).next_ssd_id = s.next_ssd_id + 1
    ∧ (lsmSync s).levels = s.levels := by
  refine ⟨rfl, ?_, rfl, rfl, rfl, rfl⟩
  show (s.imm_memtable ++ [s.memtable]).dropLast = s.imm_memtable
  simp

/-- C9: put and delete change only the mutable memtable: the
immutable-memtable list, the L0 list, the levels and next_ssd_id are
untouched, and the memtable change is exactly the insert (the source
takes only the shared read guard on this path and never replaces the
published inner pointer, so the remaining state is shared, not
copied). -/
theorem lsm_put_delete_frame (s : LsmStorageInner) (key value : List Nat)
    (hk : key ≠ []) (hv : value ≠ []) :
    (lsmPut s key value).imm_memtable = s.imm_memtable
    ∧ (lsmPut s key value).l0_sstable = s.l0_sstable
    ∧ (lsmPut s key value).levels = s.levels
    ∧ (lsmPut s key value).next_ssd_id = s.next_ssd_id
    ∧ (lsmPut s key value).memtable = s.memtable.put key value
    ∧ (lsmDelete s key).imm_memtable = s.imm_memtable
    ∧ (lsmDelete s key).l0_sstable = s.l0_sstable
    ∧ (lsmDelete s key).levels = s.levels
    ∧ (lsmDelete s key).next_ssd_id = s.next_ssd_id
    ∧ (lsmDelete s key).memtable = s.memtable.put key [] :=
  ⟨rfl, rfl, rfl, rfl, rfl, rfl, rfl, rfl, rfl, rfl⟩

/-- Witness for C9 at a concrete state and entry. -/
theorem lsm_put_delete_frame_witness :
    (lsmPut LsmStorageInner.create [1] [2]).imm_memtable
        = LsmStorageInner.create.imm_memtable
    ∧ (lsmPut LsmStorageInner.create [1] [2]).l0_sstable
        = LsmStorageInner.create.l0_sstable
    ∧ (lsmPut LsmStorageInner.create [1] [2]).levels
        = LsmStorageInner.create.levels
    ∧ (lsmPut LsmStorageInner.create [1] [2]).next_ssd_id
        = LsmStorageInner.create.next_ssd_id
    ∧ (lsmPut LsmStorageInner.create [1] [2]).memtable
        = LsmStorageInner.create.memtable.put [1] [2]
    ∧ (lsmDelete LsmStorageInner.create [1]).imm_memtable
        = LsmStorageInner.create.imm_memtable
    ∧ (lsmDelete LsmStorageInner.create [1]).l0_sstable
        = LsmStorageInner.create.l0_sstable
    ∧ (lsmDelete LsmStorageInner.create [1]).levels
        = LsmStorageInner.create.levels
    ∧ (lsmDelete LsmStorageInner.create [1]).next_ssd_id
        = LsmStorageInner.create.next_ssd_id
    ∧ (lsmDelete LsmStorageInner.create [1]).memtable
        = LsmStorageInner.create.memtable.put [1] [] :=
  lsm_put_delete_frame LsmStorageInner.create [1] [2] (by decide) (by decide)

/-- An L0 table holding the single entry with key b (98) and value
2 (50), built through the real builder pipeline. -/
def c1Table : SsTable := buildSstFromMemtable ⟨[([98], [50])]⟩ 1

/-- Engine state with empty memtables and that single L0 table. -/
def c1State : LsmStorageInner := ⟨Memtable.create, [], [c1Table], [], 2⟩

/-- An L0 table holding a single tombstone for key a (97). -/
def c1TombTable : SsTable := buildSstFromMemtable ⟨[([97], [])]⟩ 1

/-- Engine state with empty memtables and the tombstone L0 table. -/
def c1TombState : LsmStorageInner := ⟨Memtable.create, [], [c1TombTable], [], 2⟩

/-- C1 divergence, evaluated on the code model: get(a) over an L0
containing only key b returns Some(2) because the seeked merge
iterator is valid at key b, although its current key differs from the
probe key; and get(a) over an L0 containing only a tombstone for a
returns Some(empty) instead of not-found. The source checks neither
key equality nor the tombstone on the L0 path. -/
theorem lsm_get_l0_unchecked :
    lsmGet c1State [97] = some [50]
    ∧ (mergeCurrent ([c1Table].map (fun t => seekToKey t [97]))).map (fun e => e.1)
        = some [98]
    ∧ lsmGet c1TombState [97] = some [] := by
  refine ⟨by decide, by decide, by decide⟩

/-- Memtable holding the entry a (97) mapped to 1 (49). -/
def c5MtA : Memtable := ⟨[([97], [49])]⟩

/-- Engine state whose mutable memtable holds a=1, before any flush. -/
def c5State1 : LsmStorageInner := ⟨c5MtA, [], [], [], 1⟩

/-- State after a sync whose SST build step failed. -/
def c5StateFail : LsmStorageInner := (lsmSyncResult c5State1 false).2

/-- The same engine after a later write of b=2. -/
def c5StateAfterPut : LsmStorageInner := lsmPut c5StateFail [98] [50]

/-- State after the subsequent successful sync. -/
def c5StateResync : LsmStorageInner := lsmSync c5StateAfterPut

/-- C5, evaluated on the code model: a failed build returns the error
with the frozen memtable still published in the immutable list (its
data is not lost), but the subsequent sync flushes only the then
current memtable and pops the immutable it itself pushed, so the
previously frozen memtable stays in the immutable list unflushed: no
L0 table ever receives its entry. -/
theorem lsm_sync_no_reflush :
    (lsmSyncResult c5State1 false).1 = Except.error ()
    ∧ c5StateFail.imm_memtable = [c5MtA]
    ∧ c5StateResync.imm_memtable = [c5MtA]
    ∧ c5StateResync.l0_sstable = [buildSstFromMemtable ⟨[([98], [50])]⟩ 1]
    ∧ (∀ t ∈ c5StateResync.l0_sstable, ([97], [49]) ∉ t.entries) := by
  refine ⟨rfl, by decide, by decide, by decide, by decide⟩

end MiniLsm
